import Mathlib

/-!
Shallow embedding of the embedded-value parser of src/value-parser/src/lib.rs
(the `Parser` struct, the `Value` data model and the parsing routines),
together with theorems about the grammar properties of that code.

The Rust parser walks a borrowed string slice by byte offset (`pos`).  The
cursor state is modelled here as the remaining byte suffix `src[pos..]` of
the input, a `List Nat` of byte values; every primitive of the source reads
only that suffix, so the suffix is a faithful cursor model (positions past
the end all behave as the empty suffix, and the source never distinguishes
them).  Rust string slicing `&src[a..b]` aborts when an index is not a UTF-8
character boundary; that abort is modelled as the error `Err.notCharBoundary`
(for a valid-UTF-8 source, index `i > 0` is a boundary exactly when the byte
at `i` is not a continuation byte, and index `0` of the whole string also
satisfies that test, so the byte test below matches Rust on every reachable
state).  The assert/unimplemented aborts of the source are the remaining
error constructors, named after their messages.
-/

abbrev Bytes := List Nat

/-- Error kinds of the embedded parser: one constructor for each abort site
of the source, named after its message, plus `notCharBoundary` for the Rust
string-slice boundary fault in `Parser::at`, and `fuelOut`, an artifact of
the fuel-indexed embedding of the mutual recursion (shown unreachable for
sufficient fuel in `c10_parse_value_terminates`). -/
inductive Err where
  | expectedValue       -- "expected a value"
  | unterminatedString  -- "missing closing \x22"
  | unknownEscape       -- "unknown escape"
  | leadingComma        -- ", not allowed before first item"
  | missingComma        -- "expected , after list item"
  | expectedEqField     -- "expected a = after field"
  | expectedRBracket    -- "expected a ]"
  | expectedEqKey       -- "expected a = after list key"
  | mixedShape          -- "can't mix list and map"
  | invalidNumber       -- f64 conversion failure surfaced by unwrap
  | notCharBoundary     -- str slice index not on a char boundary
  | fuelOut
  deriving DecidableEq

/-- The `Value` tree of the source.  `Number` keeps the scanned lexeme bytes:
the source stores `lexeme.parse::<f64>().unwrap()`, a function of the lexeme,
and no theorem below depends on the floating-point image itself; the
conversion's success is modelled exactly by `f64_parse_ok`.  `String` holds
the decoded bytes (the source pushes each raw byte cast to a char). -/
inductive Value where
  | Bool : Bool → Value
  | Number : Bytes → Value
  | String : Bytes → Value
  | Map : List (Value × Value) → Value
  | List : List Value → Value

/-- Number of entries of a container value (`None` on scalars). -/
def entry_count : Value → Option Nat
  | .Map m => some m.length
  | .List l => some l.length
  | _ => none

/-- UTF-8 continuation byte (0x80..0xBF). -/
def is_cont (b : Nat) : Bool := 128 ≤ b && b < 192

/-- Rust `str::is_char_boundary` for index `i` of the remaining suffix,
assuming `i ≤ rem.length` (the caller checks the bound first): the index is
the end of the suffix, or the byte there is not a continuation byte. -/
def is_boundary (rem : Bytes) (i : Nat) : Bool :=
  i == rem.length || !is_cont (rem.getD i 0)

/-- `Parser::at_eof`: `pos >= src.len()`. -/
def at_eof (rem : Bytes) : Bool := rem.isEmpty

/-- `Parser::at` (named `at_tok` because `at` is reserved in Lean):
`self.pos + tok.len() <= self.src.len() && &self.src[self.pos..self.pos + tok.len()] == tok`.
The bound test short-circuits, so no slice is taken when it fails; otherwise
the slice aborts unless both ends are char boundaries. -/
def at_tok (rem tok : Bytes) : Except Err Bool :=
  if tok.length ≤ rem.length then
    if is_boundary rem 0 && is_boundary rem tok.length then
      .ok (decide (rem.take tok.length = tok))
    else .error .notCharBoundary
  else .ok false

/-- `Parser::eat`: test `at`, and on success advance past the token. -/
def eat (rem tok : Bytes) : Except Err (Bool × Bytes) :=
  match at_tok rem tok with
  | .error e => .error e
  | .ok b => .ok (b, if b then rem.drop tok.length else rem)

/-- Rust `char::is_ascii_whitespace` on a byte cast to a char. -/
def is_ws (b : Nat) : Bool := b == 32 || b == 9 || b == 10 || b == 12 || b == 13

/-- `Parser::eat_ws`: advance while the current byte is ASCII whitespace. -/
def eat_ws : Bytes → Bytes
  | [] => []
  | b :: rest => if is_ws b then eat_ws rest else b :: rest

/-- `Parser::current`: the byte at the cursor, or the NUL sentinel at
end of input (`.get(pos).copied().unwrap_or(0)`). -/
def current (rem : Bytes) : Nat := rem.headD 0

/-- `Parser::advance`: move one byte forward. -/
def advance (rem : Bytes) : Bytes := rem.drop 1

/-- `Parser::eat_current`: read the current byte, then advance. -/
def eat_current (rem : Bytes) : Nat × Bytes := (current rem, advance rem)

def is_digit (b : Nat) : Bool := 48 ≤ b && b ≤ 57

def is_alpha (b : Nat) : Bool := (65 ≤ b && b ≤ 90) || (97 ≤ b && b ≤ 122)

def is_alnum (b : Nat) : Bool := is_digit b || is_alpha b

/-- `Parser::parse_ident`: scan a maximal run of ASCII alphanumeric bytes and
return it together with the rest.  The source slices `src[start..pos]`; both
ends of that slice sit after ASCII runs, hence on char boundaries, so the
slice cannot abort. -/
def parse_ident : Bytes → Bytes × Bytes
  | [] => ([], [])
  | b :: rest =>
    if is_alnum b then
      let (s, r) := parse_ident rest
      (b :: s, r)
    else ([], b :: rest)

/-- Backslash escape table of `parse_string`. -/
def esc_decode (c : Nat) : Option Nat :=
  if c == 92 then some 92        -- "\x5c\x5c"
  else if c == 110 then some 10  -- "\x5cn"
  else if c == 114 then some 13  -- "\x5cr"
  else if c == 116 then some 9   -- "\x5ct"
  else none

/-- `Parser::parse_string` (entered after the opening quote): loop while not
at end of input and not at a quote; a backslash consumes the next byte and
decodes it through `esc_decode` (reading the NUL sentinel when the backslash
is the last byte), any other byte is pushed verbatim; on loop exit the
closing-quote assert consumes the quote, and at end of input it fails with
`unterminatedString`.  The quote lookahead is a length-1 `at`, whose char
boundary test may abort; the backslash `eat` that follows checks the same
two indices, so it can no longer abort there. -/
def parse_string : Bytes → Except Err (Bytes × Bytes)
  | [] => .error .unterminatedString
  | b :: rest =>
    match at_tok (b :: rest) [34] with
    | .error e => .error e
    | .ok true => .ok ([], rest)
    | .ok false =>
      if b == 92 then
        match rest with
        | [] => .error .unknownEscape
        | c :: rest2 =>
          match esc_decode c with
          | some d =>
            match parse_string rest2 with
            | .ok (s, r) => .ok (d :: s, r)
            | .error e => .error e
          | none => .error .unknownEscape
      else
        match parse_string rest with
        | .ok (s, r) => .ok (b :: s, r)
        | .error e => .error e

/-- Digit-and-dot scan loop of `parse_number`: return the scanned lexeme and
the rest.  Both slice ends sit next to ASCII bytes, so no boundary abort. -/
def scan_number : Bytes → Bytes × Bytes
  | [] => ([], [])
  | b :: rest =>
    if is_digit b || b == 46 then
      let (s, r) := scan_number rest
      (b :: s, r)
    else ([], b :: rest)

/-- Success predicate of Rust `lexeme.parse::<f64>()` for a lexeme made of
ASCII digits and dots: it succeeds exactly when the text has at least one
digit and at most one dot ("1." and ".5" parse, "", ".", "1..5", "1.5.2"
do not). -/
def f64_parse_ok (s : Bytes) : Bool :=
  s.any is_digit && s.countP (fun b => b == 46) ≤ 1

/-- `Parser::parse_number`: scan digits and dots, then convert; a failing
conversion is unwrapped, which aborts (`invalidNumber`). -/
def parse_number (rem : Bytes) : Except Err (Bytes × Bytes) :=
  let (s, r) := scan_number rem
  if f64_parse_ok s then .ok (s, r) else .error .invalidNumber

/-- `Parser::remove_reference`: advance until a ":" is eaten or the input
ends (the colon lookahead is a length-1 `at` and may hit a boundary abort
on multibyte text). -/
def remove_reference : Bytes → Except Err Bytes
  | [] => .ok []
  | b :: rest =>
    match at_tok (b :: rest) [58] with
    | .error e => .error e
    | .ok true => .ok rest
    | .ok false => remove_reference (advance (b :: rest))

mutual

/-- `Parser::parse_value`: skip whitespace, then dispatch on the lookahead in
the source's order: "\x7b", quote, ASCII digit, "true", "false", "@0x", else
abort with `expectedValue`.  The `Nat` argument is recursion fuel. -/
def parse_value : Nat → Bytes → Except Err (Value × Bytes)
  | 0, _ => .error .fuelOut
  | fuel + 1, rem0 =>
    let rem := eat_ws rem0
    match eat rem [123] with
    | .error e => .error e
    | .ok (true, rem1) => parse_list_or_map fuel rem1 true false [] []
    | .ok (false, _) =>
    match eat rem [34] with
    | .error e => .error e
    | .ok (true, rem1) =>
      match parse_string rem1 with
      | .ok (s, rem2) => .ok (.String s, rem2)
      | .error e => .error e
    | .ok (false, _) =>
    if is_digit (current rem) then
      match parse_number rem with
      | .ok (s, rem1) => .ok (.Number s, rem1)
      | .error e => .error e
    else
    match eat rem [116, 114, 117, 101] with
    | .error e => .error e
    | .ok (true, rem1) => .ok (.Bool true, rem1)
    | .ok (false, _) =>
    match eat rem [102, 97, 108, 115, 101] with
    | .error e => .error e
    | .ok (true, rem1) => .ok (.Bool false, rem1)
    | .ok (false, _) =>
    match eat rem [64, 48, 120] with
    | .error e => .error e
    | .ok (true, rem1) =>
      match remove_reference rem1 with
      | .ok rem2 => parse_value fuel rem2
      | .error e => .error e
    | .ok (false, _) => .error .expectedValue

/-- One iteration of the `Parser::parse_list_or_map` loop (entered after the
opening brace), with the loop state `first`, `is_map` and the two
accumulators as arguments, exactly in the source's statement order:
whitespace, optional comma, whitespace, leading-comma assert, closing brace,
missing-comma assert, whitespace, "[" with the shape asserts, then entry
dispatch: an ASCII-alphabetic lookahead always takes the struct-entry branch
(setting `is_map` to true), otherwise a locked map parses a bracketed
key-value entry, otherwise a bare value is appended to the list. -/
def parse_list_or_map : Nat → Bytes → Bool → Bool → List Value →
    List (Value × Value) → Except Err (Value × Bytes)
  | 0, _, _, _, _, _ => .error .fuelOut
  | fuel + 1, rem0, first, is_map, lacc, macc =>
    let rem1 := eat_ws rem0
    match eat rem1 [44] with
    | .error e => .error e
    | .ok (has_comma, rem2) =>
    let rem3 := eat_ws rem2
    if first && has_comma then .error .leadingComma
    else
    match eat rem3 [125] with
    | .error e => .error e
    | .ok (true, rem4) => .ok (if is_map then .Map macc else .List lacc, rem4)
    | .ok (false, _) =>
    if !first && !has_comma then .error .missingComma
    else
    let rem5 := eat_ws rem3
    match eat rem5 [91] with
    | .error e => .error e
    | .ok (lb, rem6) =>
    if lb && !first && !is_map then .error .mixedShape
    else if !lb && is_map then .error .mixedShape
    else
    let is_map2 := if lb && first then true else is_map
    if is_alpha (current rem6) then
      let (k, rem7) := parse_ident rem6
      let rem8 := eat_ws rem7
      match eat rem8 [61] with
      | .error e => .error e
      | .ok (false, _) => .error .expectedEqField
      | .ok (true, rem9) =>
        match parse_value fuel rem9 with
        | .error e => .error e
        | .ok (v, rem10) =>
          parse_list_or_map fuel rem10 false true lacc (macc ++ [(Value.String k, v)])
    else if is_map2 then
      match parse_value fuel rem6 with
      | .error e => .error e
      | .ok (k, rem7) =>
      let rem8 := eat_ws rem7
      match eat rem8 [93] with
      | .error e => .error e
      | .ok (false, _) => .error .expectedRBracket
      | .ok (true, rem9) =>
      let rem10 := eat_ws rem9
      match eat rem10 [61] with
      | .error e => .error e
      | .ok (false, _) => .error .expectedEqKey
      | .ok (true, rem11) =>
        match parse_value fuel rem11 with
        | .error e => .error e
        | .ok (v, rem12) =>
          parse_list_or_map fuel rem12 false is_map2 lacc (macc ++ [(k, v)])
    else
      match parse_value fuel rem6 with
      | .error e => .error e
      | .ok (v, rem7) => parse_list_or_map fuel rem7 false is_map2 (lacc ++ [v]) macc

end

/-- Parsing one complete value expression: `Parser::new(src).parse_value()`,
with fuel that `c10_parse_value_terminates` proves sufficient. -/
def parse (src : Bytes) : Except Err (Value × Bytes) :=
  parse_value (2 * src.length + 1) src

/-- Specification-side predicate on string-literal content (the bytes after
the opening quote): end of input is reached before an unescaped closing
quote, a backslash together with its following byte being skipped as one
escape unit. -/
def unterminated : Bytes → Bool
  | [] => true
  | b :: rest =>
    if b == 34 then false
    else if b == 92 then
      match rest with
      | [] => true
      | _ :: rest2 => unterminated rest2
    else unterminated rest

/-- Specification-side predicate: before any unescaped closing quote, the
content contains a backslash followed by a byte outside the escape table, or
a backslash as the very last byte. -/
def bad_escape : Bytes → Bool
  | [] => false
  | b :: rest =>
    if b == 34 then false
    else if b == 92 then
      match rest with
      | [] => true
      | c :: rest2 => if (esc_decode c).isSome then bad_escape rest2 else true
    else bad_escape rest

/-! Concrete evaluations.  Inputs are written as explicit byte lists; the
ASCII rendering is given in the adjacent comment. -/

-- "\x7b1, x = 2\x7d"
/-- C1: the claim says that once a container literal is locked to List shape,
a later struct entry `identifier = value` fails with MixedContainerShape and
that `parse_list_or_map` never reinterprets the shape or drops entries.  The
code violates this: on `\x7b1, x = 2\x7d` the first entry locks List shape,
yet the struct entry `x = 2` silently sets the map flag, and the parse
succeeds with a Map holding only the pair ("x", 2) — the earlier list entry
`1` is dropped and no error is raised. -/
theorem c1_struct_entry_reinterprets_list :
    parse [123, 49, 44, 32, 120, 32, 61, 32, 50, 125] =
      .ok (.Map [(.String [120], .Number [50])], []) := rfl

-- "\x7b1, x = 2\x7d"
/-- C2: the claim says an accepted container literal has as many parsed
entries as comma-separated entries written.  The input `\x7b1, x = 2\x7d`
has two comma-separated entries, yet the code accepts it and returns a
container with a single entry (the list entry `1` is dropped when the struct
entry flips the container to a Map). -/
theorem c2_entry_count_mismatch :
    (parse [123, 49, 44, 32, 120, 32, 61, 32, 50, 125]).map
        (fun p => entry_count p.1) = .ok (some 1) := rfl

-- "\x7b[true] = 1\x7d"
/-- C3: the claim (and the spec's grammar `map-entry := '[' value ']' '='
value`) says any value, including `true`, can be a bracketed map key, and
that `\x7b[true] = 1\x7d` parses to a Map with pair (Bool true, Number 1).
The code violates this: after consuming `[` it sees the ASCII letter `t` and
takes the struct-entry branch, parses the identifier `true`, and aborts with
"expected a = after field" when it meets `]`. -/
theorem c3_bool_key_rejected :
    parse [123, 91, 116, 114, 117, 101, 93, 32, 61, 32, 49, 125] =
      .error .expectedEqField := rfl

-- string-literal content "\x5c" (a lone backslash, then end of input)
/-- C4 counterexample: the claim says every string literal reaching end of
input before an unescaped closing quote — including one ending in a lone
backslash — fails with UnterminatedString.  On the lone backslash the code
consumes the backslash, reads the end-of-input NUL sentinel as the escape
character, and aborts with "unknown escape" instead. -/
theorem c4_lone_backslash_not_unterminated :
    parse_string [92] = .error .unknownEscape ∧
      Err.unknownEscape ≠ Err.unterminatedString := ⟨rfl, by decide⟩

-- "1..5" and "1.5.2"
/-- C7: both malformed numeric literals are rejected: the digit-and-dot scan
consumes the whole lexeme and the f64 conversion of a two-dot text fails,
surfaced by the unwrap. -/
theorem c7_malformed_numbers_rejected :
    parse [49, 46, 46, 53] = .error .invalidNumber ∧
      parse [49, 46, 53, 46, 50] = .error .invalidNumber := ⟨rfl, rfl⟩

-- src = [195, 169] is the two-byte UTF-8 string "é"; token "a"
/-- C9 counterexample: the claim says the cursor primitives are error-free
for every input string, including multi-byte ones, and every token.  On the
two-byte input for U+00E9 with the one-byte token "a", `Parser::at` passes
its bound test and then slices `&src[0..1]`, whose end index 1 falls inside
the two-byte character: the slice aborts (a char-boundary fault), so the
lookahead primitive is not error-free. -/
theorem c9_at_multibyte_faults :
    at_tok [195, 169] [97] = .error .notCharBoundary := rfl

/-! Helper lemmas about the primitives. -/

theorem ascii_not_cont {b : Nat} (h : b < 128) : is_cont b = false := by
  simp [is_cont]; omega

theorem ws_not_cont {b : Nat} (h : is_ws b = true) : is_cont b = false := by
  simp [is_ws] at h
  simp [is_cont]
  omega

theorem ascii_getD {l : Bytes} (h : ∀ b ∈ l, b < 128) (i : Nat) :
    is_cont (l.getD i 0) = false := by
  induction l generalizing i with
  | nil => simp [List.getD, is_cont]
  | cons a t ih =>
    cases i with
    | zero => exact ascii_not_cont (h a (by simp))
    | succ j => simpa using ih (fun b hb => h b (by simp [hb])) j

theorem is_boundary_of_getD {rem : Bytes} {i : Nat}
    (h : is_cont (rem.getD i 0) = false) : is_boundary rem i = true := by
  simp only [is_boundary, h]
  simp

theorem is_boundary_ascii {rem : Bytes} (h : ∀ b ∈ rem, b < 128) (i : Nat) :
    is_boundary rem i = true :=
  is_boundary_of_getD (ascii_getD h i)

/-- On ASCII input `at` never aborts: it reduces to the bound test and the
byte comparison. -/
theorem at_tok_ascii {rem : Bytes} (h : ∀ b ∈ rem, b < 128) (tok : Bytes) :
    at_tok rem tok =
      if tok.length ≤ rem.length then .ok (decide (rem.take tok.length = tok))
      else .ok false := by
  unfold at_tok
  rw [is_boundary_ascii h 0, is_boundary_ascii h tok.length]
  simp

/-- A length-1 lookahead at a non-continuation byte, whose successor index is
also a boundary, is the plain byte comparison. -/
theorem at_tok_one {b t : Nat} {rest : Bytes} (hb : is_cont b = false)
    (hr : is_cont (rest.getD 0 0) = false) :
    at_tok (b :: rest) [t] = .ok (b == t) := by
  have h0 : is_boundary (b :: rest) 0 = true :=
    is_boundary_of_getD (by rw [List.getD_cons_zero]; exact hb)
  have h1 : is_boundary (b :: rest) 1 = true :=
    is_boundary_of_getD (by rw [List.getD_cons_succ]; exact hr)
  unfold at_tok
  rw [if_pos (by simp)]
  rw [if_pos (by rw [List.length_cons, List.length_nil, h0, h1]; rfl)]
  by_cases h : b = t
  · subst h; simp
  · simp [h, Ne.symm h]

theorem eat_one {b t : Nat} {rest : Bytes} (hb : is_cont b = false)
    (hr : is_cont (rest.getD 0 0) = false) :
    eat (b :: rest) [t] = .ok (b == t, if b == t then rest else b :: rest) := by
  unfold eat
  rw [at_tok_one hb hr]
  by_cases h : b = t
  · subst h; simp
  · simp [h]

/-- A multi-byte lookahead whose first byte already differs answers false
(given that both slice ends are boundaries, or the bound test fails). -/
theorem at_tok_cons_ne {a b : Nat} {rem tok : Bytes} (hab : a ≠ b)
    (ha : is_cont a = false)
    (hbn : is_boundary (a :: rem) (tok.length + 1) = true) :
    at_tok (a :: rem) (b :: tok) = .ok false := by
  unfold at_tok
  by_cases hlen : (b :: tok).length ≤ (a :: rem).length
  · have h0 : is_boundary (a :: rem) 0 = true :=
      is_boundary_of_getD (by rw [List.getD_cons_zero]; exact ha)
    rw [if_pos hlen]
    rw [if_pos (by rw [List.length_cons, h0, hbn]; rfl)]
    have hd : decide ((a :: rem).take (b :: tok).length = b :: tok) = false := by
      apply decide_eq_false
      simp only [List.length_cons, List.take_succ_cons, List.cons.injEq, not_and]
      exact fun hEq => absurd hEq hab
    rw [hd]
  · rw [if_neg hlen]

theorem eat_ws_append {ws : Bytes} (r : Bytes) (h : ∀ b ∈ ws, is_ws b = true) :
    eat_ws (ws ++ r) = eat_ws r := by
  induction ws with
  | nil => rfl
  | cons a t ih =>
    have ha : is_ws a = true := h a (by simp)
    simp only [List.cons_append, eat_ws, ha, if_true]
    exact ih (fun b hb => h b (by simp [hb]))

theorem eat_ws_cons_not {b : Nat} {rest : Bytes} (h : is_ws b = false) :
    eat_ws (b :: rest) = b :: rest := by
  simp [eat_ws, h]

/-! C9 (amended) and C8. -/

/-- C9, amended: on ASCII input the lookahead and consume primitives are
error-free, and a lookahead whose token extends beyond the remaining input
answers false from the bound test alone, never reading past the end.  The
remaining primitives of the claim — the end-of-input test `at_eof`, the
whitespace skip `eat_ws`, `current` and `advance` — contain no abort site at
all and are modelled as total functions above.  (On non-ASCII input the
lookahead can abort: `c9_at_multibyte_faults`.) -/
theorem c9_primitives_amended (rem tok : Bytes) (h : ∀ b ∈ rem, b < 128) :
    (∃ b, at_tok rem tok = .ok b ∧
      eat rem tok = .ok (b, if b then rem.drop tok.length else rem)) ∧
    (rem.length < tok.length → at_tok rem tok = .ok false) := by
  constructor
  · by_cases hlen : tok.length ≤ rem.length
    · exact ⟨decide (rem.take tok.length = tok),
        by rw [at_tok_ascii h, if_pos hlen],
        by rw [eat, at_tok_ascii h, if_pos hlen]⟩
    · exact ⟨false,
        by rw [at_tok_ascii h, if_neg hlen],
        by rw [eat, at_tok_ascii h, if_neg hlen]⟩
  · intro hlen
    rw [at_tok_ascii h, if_neg (by omega)]

theorem c9_primitives_amended_witness : at_tok [97] [97, 98] = .ok false :=
  (c9_primitives_amended [97] [97, 98] (by decide)).2 (by decide)

/-- C8: a container literal with no entries before the closing brace — any
ASCII whitespace inside — parses to the empty List, never a Map: the loop's
first iteration finds no comma, eats the brace, and `is_map` is still false. -/
theorem c8_empty_container_list (ws : Bytes) (g : Nat)
    (h : ∀ b ∈ ws, is_ws b = true) :
    parse_value (g + 2) (123 :: (ws ++ [125])) = .ok (.List [], []) := by
  have hhead : is_cont ((ws ++ [125]).getD 0 0) = false := by
    cases ws with
    | nil => decide
    | cons a t => exact ws_not_cont (h a (by simp))
  have heat : eat (123 :: (ws ++ [125])) [123] = .ok (true, ws ++ [125]) := by
    rw [eat_one (by decide) hhead]; rfl
  have hws : eat_ws (ws ++ [125]) = [125] := by
    rw [eat_ws_append [125] h]; rfl
  show parse_value (g + 1 + 1) (123 :: (ws ++ [125])) = .ok (.List [], [])
  simp only [parse_value]
  rw [eat_ws_cons_not (by decide), heat]
  show parse_list_or_map (g + 1) (ws ++ [125]) true false [] [] = _
  simp only [parse_list_or_map]
  rw [hws]
  rfl

theorem c8_empty_container_list_witness :
    parse_value 2 [123, 32, 125] = .ok (.List [], []) :=
  c8_empty_container_list [32] 0 (by decide)

/-! C5: escape fidelity. -/

/-- C5: inside a string literal exactly the four escapes decode —
backslash-backslash to a backslash (92), backslash-n to newline (10),
backslash-r to carriage return (13), backslash-t to tab (9) — any other
character after a backslash aborts with UnknownEscapeSequence, and a closing
quote is consumed without appearing in the decoded text.  The hypotheses say
the two bytes at the cursor are not UTF-8 continuation bytes, which holds at
every char-aligned position of a valid Rust string. -/
theorem c5_escape_fidelity (c : Nat) (rest : Bytes) (hc : is_cont c = false)
    (hr : is_cont (rest.getD 0 0) = false) :
    (parse_string (92 :: c :: rest) =
      if c = 92 then (parse_string rest).map (fun p => (92 :: p.1, p.2))
      else if c = 110 then (parse_string rest).map (fun p => (10 :: p.1, p.2))
      else if c = 114 then (parse_string rest).map (fun p => (13 :: p.1, p.2))
      else if c = 116 then (parse_string rest).map (fun p => (9 :: p.1, p.2))
      else .error .unknownEscape) ∧
    parse_string (34 :: rest) = .ok ([], rest) := by
  constructor
  · have hat : at_tok (92 :: c :: rest) [34] = .ok false := by
      rw [at_tok_one (by decide) (by rw [List.getD_cons_zero]; exact hc)]; rfl
    simp only [parse_string, hat]
    by_cases h92 : c = 92
    · subst h92; cases hps : parse_string rest <;> simp [esc_decode, hps, Except.map]
    · by_cases h110 : c = 110
      · subst h110; cases hps : parse_string rest <;> simp [esc_decode, hps, Except.map]
      · by_cases h114 : c = 114
        · subst h114; cases hps : parse_string rest <;> simp [esc_decode, hps, Except.map]
        · by_cases h116 : c = 116
          · subst h116; cases hps : parse_string rest <;> simp [esc_decode, hps, Except.map]
          · simp [esc_decode, h92, h110, h114, h116]
  · have hat : at_tok (34 :: rest) [34] = .ok true := by
      rw [at_tok_one (by decide) hr]; rfl
    cases rest with
    | nil => rfl
    | cons c rest2 => simp only [parse_string, hat]

theorem c5_escape_fidelity_witness :
    parse_string [92, 120] = .error .unknownEscape ∧ parse_string [34] = .ok ([], []) := by
  have h := c5_escape_fidelity 120 [] (by decide) (by decide)
  exact ⟨by simpa using h.1, h.2⟩

/-! C4: unterminated string literals (amended). -/

/-- C4, amended: for ASCII string-literal content that reaches end of input
before an unescaped closing quote, `parse_string` always fails; the error is
UnknownEscapeSequence when the content holds a backslash followed by a byte
outside the escape table or by end of input (the source then decodes the NUL
sentinel, see `c4_lone_backslash_not_unterminated`), and UnterminatedString
otherwise. -/
theorem c4_unterminated_amended (rem : Bytes) (hascii : ∀ b ∈ rem, b < 128)
    (hunt : unterminated rem = true) :
    parse_string rem =
      .error (if bad_escape rem then .unknownEscape else .unterminatedString) := by
  suffices h : ∀ n (rem : Bytes), rem.length ≤ n → (∀ b ∈ rem, b < 128) →
      unterminated rem = true →
      parse_string rem =
        .error (if bad_escape rem then .unknownEscape else .unterminatedString) from
    h rem.length rem le_rfl hascii hunt
  intro n
  induction n with
  | zero =>
    intro rem hlen _ _
    have : rem = [] := List.eq_nil_of_length_eq_zero (Nat.le_zero.mp hlen)
    subst this
    rfl
  | succ n ih =>
    intro rem hlen ha hu
    cases rem with
    | nil => rfl
    | cons b rest =>
      have hb : b < 128 := ha b (by simp)
      have hbc : is_cont b = false := ascii_not_cont hb
      have hrest : ∀ x ∈ rest, x < 128 := fun x hx => ha x (by simp [hx])
      have hr0 : is_cont (rest.getD 0 0) = false := ascii_getD hrest 0
      have hlen2 : rest.length ≤ n := by simp [List.length_cons] at hlen; omega
      by_cases h34 : b = 34
      · subst h34
        cases rest <;> simp [unterminated] at hu
      · have hb34 : (b == 34) = false := by simp [h34]
        have hat : at_tok (b :: rest) [34] = .ok false :=
          (at_tok_one hbc hr0).trans (by rw [hb34])
        by_cases h92 : b = 92
        · subst h92
          cases rest with
          | nil => rfl
          | cons c rest2 =>
            have hu2 : unterminated rest2 = true := hu
            cases hdec : esc_decode c with
            | some d =>
              have ihr := ih rest2 (by simp [List.length_cons] at hlen2; omega)
                (fun x hx => hrest x (by simp [hx])) hu2
              simp only [parse_string, hat, hdec, ihr]
              simp [bad_escape, hdec]
            | none =>
              simp only [parse_string, hat, hdec]
              simp [bad_escape, hdec]
        · have hb92 : (b == 92) = false := by simp [h92]
          cases rest with
          | nil =>
            simp [parse_string, hat, hb92, bad_escape, hb34]
          | cons c rest2 =>
            have hu2 : unterminated (c :: rest2) = true := by
              simpa [unterminated, hb34, hb92] using hu
            have ihr := ih (c :: rest2) hlen2 hrest hu2
            simp only [parse_string, hat, hb92, Bool.false_eq_true, if_false, ihr]
            simp [bad_escape, hb34, hb92]

theorem c4_unterminated_amended_witness :
    parse_string [97] = .error .unterminatedString := by
  have h := c4_unterminated_amended [97] (by decide) (by decide)
  simpa using h

/-! C6: reference transparency. -/

theorem eat_false {rem tok : Bytes} (h : at_tok rem tok = .ok false) :
    eat rem tok = .ok (false, rem) := by
  unfold eat; rw [h]; rfl

theorem eat_true {rem tok : Bytes} (h : at_tok rem tok = .ok true) :
    eat rem tok = .ok (true, rem.drop tok.length) := by
  unfold eat; rw [h]; rfl

theorem remove_reference_cons (b : Nat) (rest : Bytes) :
    remove_reference (b :: rest) =
      match at_tok (b :: rest) [58] with
      | .error e => .error e
      | .ok true => .ok rest
      | .ok false => remove_reference rest := rfl

theorem remove_reference_step {b : Nat} {rest : Bytes}
    (h : at_tok (b :: rest) [58] = .ok false) :
    remove_reference (b :: rest) = remove_reference rest := by
  rw [remove_reference_cons, h]

theorem annot_getD_0 (t vs : Bytes) (ht : ∀ b ∈ t, b < 128 ∧ b ≠ 58) :
    is_cont ((t ++ 58 :: vs).getD 0 0) = false := by
  cases t with
  | nil => simp [is_cont]
  | cons a t1 =>
    simp only [List.cons_append, List.getD_cons_zero]
    exact ascii_not_cont (ht a (by simp)).1

theorem annot_getD_1 (t vs : Bytes) (ht : ∀ b ∈ t, b < 128 ∧ b ≠ 58)
    (hv0 : is_cont (vs.getD 0 0) = false) :
    is_cont ((t ++ 58 :: vs).getD 1 0) = false := by
  cases t with
  | nil => simpa [List.getD_cons_succ] using hv0
  | cons a t1 =>
    simp only [List.cons_append, List.getD_cons_succ]
    exact annot_getD_0 t1 vs (fun b hb => ht b (by simp [hb]))

theorem annot_getD_2 (t vs : Bytes) (ht : ∀ b ∈ t, b < 128 ∧ b ≠ 58)
    (hv0 : is_cont (vs.getD 0 0) = false) (hv1 : is_cont (vs.getD 1 0) = false) :
    is_cont ((t ++ 58 :: vs).getD 2 0) = false := by
  cases t with
  | nil => simpa [List.getD_cons_succ] using hv1
  | cons a t1 =>
    simp only [List.cons_append, List.getD_cons_succ]
    exact annot_getD_1 t1 vs (fun b hb => ht b (by simp [hb])) hv0

/-- The reference-stripping loop on annotation text free of colons, ending at
the first colon: everything through the colon is discarded and the rest is
returned unchanged. -/
theorem remove_reference_annot (t vs : Bytes) (ht : ∀ b ∈ t, b < 128 ∧ b ≠ 58)
    (hv0 : is_cont (vs.getD 0 0) = false) :
    remove_reference (t ++ 58 :: vs) = .ok vs := by
  induction t with
  | nil =>
    have hat : at_tok (58 :: vs) [58] = .ok true := by
      rw [at_tok_one (by decide) hv0]; rfl
    rw [List.nil_append, remove_reference_cons, hat]
  | cons a t1 ih =>
    have ha := ht a (by simp)
    have ht1 : ∀ b ∈ t1, b < 128 ∧ b ≠ 58 := fun b hb => ht b (by simp [hb])
    have hat : at_tok (a :: (t1 ++ 58 :: vs)) [58] = .ok false := by
      rw [at_tok_one (ascii_not_cont ha.1) (annot_getD_0 t1 vs ht1)]
      rw [show (a == 58) = false by simp [ha.2]]
    rw [List.cons_append, remove_reference_step hat]
    exact ih ht1

/-- C6, amended: a reference annotation `@0x` followed by colon-free ASCII
text, a colon, and a value expression parses exactly as the value expression
alone — token for token and fuel step for fuel step (the annotation costs
the one dispatch step that recognised `@0x`).  Nothing of the stripped
annotation reaches the output tree, since the result is literally the parse
of the value text.  The hypotheses on `vs` say its first two bytes are not
UTF-8 continuation bytes, true of every Rust string.  The ASCII restriction
on the annotation text is necessary: on multi-byte annotation text the
token lookaheads slice the source inside a character and the whole parse
aborts with a char-boundary fault instead of parsing transparently
(`c6_multibyte_reference_not_transparent`). -/
theorem c6_reference_transparent (t vs : Bytes) (fuel : Nat)
    (ht : ∀ b ∈ t, b < 128 ∧ b ≠ 58)
    (hv0 : is_cont (vs.getD 0 0) = false)
    (hv1 : is_cont (vs.getD 1 0) = false) :
    parse_value (fuel + 1) (64 :: 48 :: 120 :: (t ++ 58 :: vs)) =
      parse_value fuel vs := by
  have hg0 := annot_getD_0 t vs ht
  have hg1 := annot_getD_1 t vs ht hv0
  have hg2 := annot_getD_2 t vs ht hv0 hv1
  have hlb : eat (64 :: 48 :: 120 :: (t ++ 58 :: vs)) [123] =
      .ok (false, 64 :: 48 :: 120 :: (t ++ 58 :: vs)) :=
    eat_false (by rw [at_tok_one (by decide) (by rw [List.getD_cons_zero]; decide)]; rfl)
  have hquote : eat (64 :: 48 :: 120 :: (t ++ 58 :: vs)) [34] =
      .ok (false, 64 :: 48 :: 120 :: (t ++ 58 :: vs)) :=
    eat_false (by rw [at_tok_one (by decide) (by rw [List.getD_cons_zero]; decide)]; rfl)
  have htrue : eat (64 :: 48 :: 120 :: (t ++ 58 :: vs)) [116, 114, 117, 101] =
      .ok (false, 64 :: 48 :: 120 :: (t ++ 58 :: vs)) :=
    eat_false (at_tok_cons_ne (by decide) (by decide)
      (is_boundary_of_getD (by simp only [List.getD_cons_succ]; exact hg1)))
  have hfalse : eat (64 :: 48 :: 120 :: (t ++ 58 :: vs)) [102, 97, 108, 115, 101] =
      .ok (false, 64 :: 48 :: 120 :: (t ++ 58 :: vs)) :=
    eat_false (at_tok_cons_ne (by decide) (by decide)
      (is_boundary_of_getD (by simp only [List.getD_cons_succ]; exact hg2)))
  have h0x : eat (64 :: 48 :: 120 :: (t ++ 58 :: vs)) [64, 48, 120] =
      .ok (true, t ++ 58 :: vs) := by
    have hat : at_tok (64 :: 48 :: 120 :: (t ++ 58 :: vs)) [64, 48, 120] = .ok true := by
      unfold at_tok
      rw [if_pos (by simp)]
      rw [if_pos (by
        rw [is_boundary_of_getD (by rw [List.getD_cons_zero]; decide),
          @is_boundary_of_getD (64 :: 48 :: 120 :: (t ++ 58 :: vs))
            (List.length [64, 48, 120]) hg0]
        rfl)]
      simp
    rw [eat_true hat]
    simp
  have hrr := remove_reference_annot t vs ht hv0
  have hd : is_digit (current (64 :: 48 :: 120 :: (t ++ 58 :: vs))) = false := rfl
  simp only [parse_value]
  rw [eat_ws_cons_not (by decide)]
  simp only [hlb, hquote, htrue, hfalse, h0x, hrr, hd]
  simp

theorem c6_reference_transparent_witness :
    parse_value 4 [64, 48, 120, 56, 51, 102, 100, 58, 32, 49] =
      parse_value 3 [32, 49] :=
  c6_reference_transparent [56, 51, 102, 100] [32, 49] 3 (by decide) (by decide) (by decide)

-- "@0x\xc3\xa9: 1" (annotation text is the two-byte UTF-8 character U+00E9)
-- versus " 1" alone
/-- C6 counterexample: the claim quantifies over every annotation text, but
reference stripping is not transparent on multi-byte annotation text.  On
the input `@0x` ++ U+00E9 ++ `: 1` the "true" lookahead at the start of the
dispatch passes its bound test and then slices the source at byte offset 4,
inside the two-byte character, so the parse aborts with a char-boundary
fault — while the value text alone parses to Number 1.  (This is the same
slice fault the real Rust code hits.) -/
theorem c6_multibyte_reference_not_transparent :
    parse [64, 48, 120, 195, 169, 58, 32, 49] = .error .notCharBoundary ∧
    parse [32, 49] = .ok (.Number [49], []) ∧
    (Except.error .notCharBoundary : Except Err (Value × Bytes)) ≠
      .ok (.Number [49], []) :=
  ⟨rfl, rfl, by simp⟩

/-! C10: termination.  First, length and error-kind facts about the
leaf routines. -/

theorem eat_ws_length (rem : Bytes) : (eat_ws rem).length ≤ rem.length := by
  induction rem with
  | nil => simp [eat_ws]
  | cons b rest ih =>
    by_cases h : is_ws b = true
    · simp [eat_ws, h]
      omega
    · simp [eat_ws, h]

theorem at_tok_true_le {rem tok : Bytes} (h : at_tok rem tok = .ok true) :
    tok.length ≤ rem.length := by
  unfold at_tok at h
  by_cases hlen : tok.length ≤ rem.length
  · exact hlen
  · rw [if_neg hlen] at h; simp at h

theorem at_tok_error {rem tok : Bytes} {e : Err} (h : at_tok rem tok = .error e) :
    e = .notCharBoundary := by
  unfold at_tok at h
  by_cases h1 : tok.length ≤ rem.length
  · rw [if_pos h1] at h
    by_cases h2 : (is_boundary rem 0 && is_boundary rem tok.length) = true
    · rw [if_pos h2] at h; simp at h
    · rw [if_neg h2] at h; injection h with h3; exact h3.symm
  · rw [if_neg h1] at h; simp at h

theorem eat_ok_cases {rem tok rem2 : Bytes} {b : Bool} (h : eat rem tok = .ok (b, rem2)) :
    (b = true ∧ tok.length ≤ rem.length ∧ rem2 = rem.drop tok.length) ∨
    (b = false ∧ rem2 = rem) := by
  unfold eat at h
  cases hat : at_tok rem tok with
  | error e => rw [hat] at h; simp at h
  | ok bb =>
    rw [hat] at h
    injection h with h1
    injection h1 with hb hr
    cases bb with
    | true => exact Or.inl ⟨hb.symm, at_tok_true_le hat, by rw [← hr]; simp⟩
    | false => exact Or.inr ⟨hb.symm, by rw [← hr]; simp⟩

theorem eat_length {rem tok rem2 : Bytes} {b : Bool} (h : eat rem tok = .ok (b, rem2)) :
    rem2.length ≤ rem.length := by
  rcases eat_ok_cases h with ⟨_, _, hr⟩ | ⟨_, hr⟩ <;> subst hr <;> simp

theorem eat_true_length {rem tok rem2 : Bytes} (h : eat rem tok = .ok (true, rem2))
    (htok : 0 < tok.length) : rem2.length < rem.length := by
  rcases eat_ok_cases h with ⟨_, hle, hr⟩ | ⟨hb, _⟩
  · subst hr; simp; omega
  · simp at hb

theorem eat_error {rem tok : Bytes} {e : Err} (h : eat rem tok = .error e) :
    e = .notCharBoundary := by
  unfold eat at h
  cases hat : at_tok rem tok with
  | error e2 => rw [hat] at h; injection h with h2; subst h2; exact at_tok_error hat
  | ok bb => rw [hat] at h; simp at h

theorem scan_number_append (rem : Bytes) :
    (scan_number rem).1 ++ (scan_number rem).2 = rem := by
  induction rem with
  | nil => rfl
  | cons b rest ih =>
    rcases hsr : scan_number rest with ⟨s, r⟩
    rw [hsr] at ih
    by_cases h : (is_digit b || b == 46) = true
    · simp only [scan_number, h, if_true, hsr]
      simpa using ih
    · simp [scan_number, h]

theorem parse_number_ok {rem s rem2 : Bytes} (h : parse_number rem = .ok (s, rem2)) :
    rem2.length < rem.length := by
  unfold parse_number at h
  rcases hsr : scan_number rem with ⟨s0, r0⟩
  simp only [hsr] at h
  by_cases hok : f64_parse_ok s0 = true
  · rw [if_pos hok] at h
    injection h with h1
    injection h1 with hs hr
    have happ := scan_number_append rem
    rw [hsr] at happ
    have hne : s0 ≠ [] := by
      intro hnil; subst hnil; simp [f64_parse_ok] at hok
    have hlen : s0.length + r0.length = rem.length := by
      rw [← happ]; simp
    have hpos : 0 < s0.length := List.length_pos.mpr hne
    rw [← hr]
    omega
  · rw [if_neg hok] at h; simp at h

theorem parse_number_error {rem : Bytes} {e : Err} (h : parse_number rem = .error e) :
    e = .invalidNumber := by
  unfold parse_number at h
  rcases hsr : scan_number rem with ⟨s0, r0⟩
  simp only [hsr] at h
  by_cases hok : f64_parse_ok s0 = true
  · rw [if_pos hok] at h; simp at h
  · rw [if_neg hok] at h; injection h with h2; exact h2.symm

theorem parse_ident_append (rem : Bytes) :
    (parse_ident rem).1 ++ (parse_ident rem).2 = rem := by
  induction rem with
  | nil => rfl
  | cons b rest ih =>
    rcases hsr : parse_ident rest with ⟨s, r⟩
    rw [hsr] at ih
    by_cases h : is_alnum b = true
    · simp only [parse_ident, h, if_true, hsr]
      simpa using ih
    · simp [parse_ident, h]

theorem parse_ident_le (rem : Bytes) : (parse_ident rem).2.length ≤ rem.length := by
  conv_rhs => rw [← parse_ident_append rem]
  simp [List.length_append]

theorem parse_ident_alpha {rem : Bytes} (h : is_alpha (current rem) = true) :
    (parse_ident rem).2.length < rem.length := by
  cases rem with
  | nil => exact absurd h (by decide)
  | cons b rest =>
    have hb : is_alnum b = true := by
      have hb2 : is_alpha b = true := h
      simp [is_alnum, hb2]
    rcases hsr : parse_ident rest with ⟨s, r⟩
    have hle : r.length ≤ rest.length := by
      have := parse_ident_le rest
      rw [hsr] at this
      exact this
    simp only [parse_ident, hb, if_true, hsr]
    simp only [List.length_cons]
    omega

theorem remove_reference_facts :
    ∀ rem : Bytes, (∀ rem2, remove_reference rem = .ok rem2 → rem2.length ≤ rem.length) ∧
      (∀ e, remove_reference rem = .error e → e = .notCharBoundary) := by
  intro rem
  induction rem with
  | nil =>
    constructor
    · intro rem2 h
      simp only [remove_reference] at h
      injection h with h2
      rw [← h2]
    · intro e h; simp [remove_reference] at h
  | cons b rest ih =>
    constructor
    · intro rem2 h
      rw [remove_reference_cons] at h
      cases hat : at_tok (b :: rest) [58] with
      | error e => rw [hat] at h; simp at h
      | ok bb =>
        rw [hat] at h
        cases bb with
        | true =>
          simp only at h
          injection h with h2
          rw [← h2]
          simp
        | false =>
          simp only at h
          have := ih.1 rem2 h
          simp only [List.length_cons]
          omega
    · intro e h
      rw [remove_reference_cons] at h
      cases hat : at_tok (b :: rest) [58] with
      | error e2 => rw [hat] at h; injection h with h2; subst h2; exact at_tok_error hat
      | ok bb =>
        rw [hat] at h
        cases bb with
        | true => simp at h
        | false => exact ih.2 e h

theorem parse_string_facts : ∀ rem : Bytes,
    (∀ s rem2, parse_string rem = .ok (s, rem2) → rem2.length < rem.length) ∧
    (∀ e, parse_string rem = .error e → e ≠ .fuelOut) := by
  suffices h : ∀ n (rem : Bytes), rem.length ≤ n →
      (∀ s rem2, parse_string rem = .ok (s, rem2) → rem2.length < rem.length) ∧
      (∀ e, parse_string rem = .error e → e ≠ .fuelOut) from
    fun rem => h rem.length rem le_rfl
  intro n
  induction n with
  | zero =>
    intro rem hlen
    have : rem = [] := List.eq_nil_of_length_eq_zero (Nat.le_zero.mp hlen)
    subst this
    constructor
    · intro s rem2 h
      rw [show parse_string [] = .error .unterminatedString from rfl] at h
      simp at h
    · intro e h
      rw [show parse_string [] = .error .unterminatedString from rfl] at h
      injection h with h2; subst h2; decide
  | succ n ih =>
    intro rem hlen
    cases rem with
    | nil =>
      constructor
      · intro s rem2 h
        rw [show parse_string [] = .error .unterminatedString from rfl] at h
        simp at h
      · intro e h
        rw [show parse_string [] = .error .unterminatedString from rfl] at h
        injection h with h2; subst h2; decide
    | cons b rest =>
      have hlen2 : rest.length ≤ n := by simp [List.length_cons] at hlen; omega
      have hmain : ∀ res, parse_string (b :: rest) = res →
          (∀ s rem2, res = .ok (s, rem2) → rem2.length < (b :: rest).length) ∧
          (∀ e, res = .error e → e ≠ .fuelOut) → 
          (∀ s rem2, parse_string (b :: rest) = .ok (s, rem2) →
            rem2.length < (b :: rest).length) ∧
          (∀ e, parse_string (b :: rest) = .error e → e ≠ .fuelOut) := by
        intro res hres hconcl
        constructor
        · intro s rem2 h; exact hconcl.1 s rem2 (hres ▸ h)
        · intro e h; exact hconcl.2 e (hres ▸ h)
      cases rest with
      | nil =>
        cases hat : at_tok [b] [34] with
        | error e2 =>
          refine hmain (.error e2) (by simp only [parse_string, hat]) ⟨?_, ?_⟩
          · intro s rem2 h; simp at h
          · intro e h; injection h with h2; subst h2
            rw [at_tok_error hat]; decide
        | ok bq =>
          cases bq with
          | true =>
            refine hmain (.ok ([], [])) (by simp only [parse_string, hat]) ⟨?_, ?_⟩
            · intro s rem2 h
              injection h with h1
              injection h1 with hs hr
              rw [← hr]; simp
            · intro e h; simp at h
          | false =>
            by_cases hb : b = 92
            · subst hb
              refine hmain (.error .unknownEscape) (by simp [parse_string, hat]) ⟨?_, ?_⟩
              · intro s rem2 h; simp at h
              · intro e h; injection h with h2; subst h2; decide
            · have hb92 : (b == 92) = false := by simp [hb]
              refine hmain (.error .unterminatedString)
                (by simp [parse_string, hat, hb92]) ⟨?_, ?_⟩
              · intro s rem2 h; simp at h
              · intro e h; injection h with h2; subst h2; decide
      | cons c rest2 =>
        cases hat : at_tok (b :: c :: rest2) [34] with
        | error e2 =>
          refine hmain (.error e2) (by simp only [parse_string, hat]) ⟨?_, ?_⟩
          · intro s rem2 h; simp at h
          · intro e h; injection h with h2; subst h2
            rw [at_tok_error hat]; decide
        | ok bq =>
          cases bq with
          | true =>
            refine hmain (.ok ([], c :: rest2)) (by simp only [parse_string, hat]) ⟨?_, ?_⟩
            · intro s rem2 h
              injection h with h1
              injection h1 with hs hr
              rw [← hr]; simp
            · intro e h; simp at h
          | false =>
            by_cases hb : b = 92
            · subst hb
              cases hdec : esc_decode c with
              | some d =>
                cases hps : parse_string rest2 with
                | ok pr =>
                  obtain ⟨s3, r3⟩ := pr
                  refine hmain (.ok (d :: s3, r3))
                    (by simp [parse_string, hat, hdec, hps]) ⟨?_, ?_⟩
                  · intro s rem2 h
                    injection h with h1
                    injection h1 with hs hr
                    have hlt := (ih rest2 (by simp [List.length_cons] at hlen2; omega)).1 s3 r3 hps
                    rw [← hr]
                    simp only [List.length_cons]
                    omega
                  · intro e h; simp at h
                | error e3 =>
                  refine hmain (.error e3)
                    (by simp [parse_string, hat, hdec, hps]) ⟨?_, ?_⟩
                  · intro s rem2 h; simp at h
                  · intro e h; injection h with h2; subst h2
                    exact (ih rest2 (by simp [List.length_cons] at hlen2; omega)).2 e3 hps
              | none =>
                refine hmain (.error .unknownEscape)
                  (by simp [parse_string, hat, hdec]) ⟨?_, ?_⟩
                · intro s rem2 h; simp at h
                · intro e h; injection h with h2; subst h2; decide
            · have hb92 : (b == 92) = false := by simp [hb]
              cases hps : parse_string (c :: rest2) with
              | ok pr =>
                obtain ⟨s3, r3⟩ := pr
                refine hmain (.ok (b :: s3, r3))
                  (by simp [parse_string, hat, hb92, hps]) ⟨?_, ?_⟩
                · intro s rem2 h
                  injection h with h1
                  injection h1 with hs hr
                  have hlt := (ih (c :: rest2) hlen2).1 s3 r3 hps
                  rw [← hr]
                  simp only [List.length_cons] at hlt ⊢
                  omega
                · intro e h; simp at h
              | error e3 =>
                refine hmain (.error e3)
                  (by simp [parse_string, hat, hb92, hps]) ⟨?_, ?_⟩
                · intro s rem2 h; simp at h
                · intro e h; injection h with h2; subst h2
                  exact (ih (c :: rest2) hlen2).2 e3 hps

/-- Every successful `parse_value` or `parse_list_or_map` call consumes at
least one byte of the remaining input, whatever the fuel. -/
theorem parse_progress : ∀ fuel : Nat,
    (∀ rem0 v rem2, parse_value fuel rem0 = .ok (v, rem2) →
      rem2.length < rem0.length) ∧
    (∀ rem0 first is_map lacc macc v rem2,
      parse_list_or_map fuel rem0 first is_map lacc macc = .ok (v, rem2) →
      rem2.length < rem0.length) := by
  intro fuel
  induction fuel with
  | zero =>
    constructor
    · intro rem0 v rem2 h
      rw [show parse_value 0 rem0 = .error .fuelOut from rfl] at h
      simp at h
    · intro rem0 first is_map lacc macc v rem2 h
      rw [show parse_list_or_map 0 rem0 first is_map lacc macc = .error .fuelOut from rfl] at h
      simp at h
  | succ fuel ih =>
    obtain ⟨ihv, ihl⟩ := ih
    constructor
    · intro rem0 v rem2 h
      simp only [parse_value] at h
      have hws0 := eat_ws_length rem0
      cases h1 : eat (eat_ws rem0) [123] with
      | error e => simp [h1] at h
      | ok p1 =>
        obtain ⟨b1, rem1⟩ := p1
        cases b1 with
        | true =>
          simp only [h1] at h
          have hlt := ihl rem1 true false [] [] v rem2 h
          have he := eat_true_length h1 (by decide)
          omega
        | false =>
          simp only [h1] at h
          cases h2 : eat (eat_ws rem0) [34] with
          | error e => simp [h2] at h
          | ok p2 =>
            obtain ⟨b2, remq⟩ := p2
            cases b2 with
            | true =>
              simp only [h2] at h
              cases hps : parse_string remq with
              | error e => simp [hps] at h
              | ok pr =>
                obtain ⟨s, r⟩ := pr
                simp only [hps] at h
                injection h with h1'
                injection h1' with hv hr
                have hsl := (parse_string_facts remq).1 s r hps
                have he := eat_true_length h2 (by decide)
                rw [← hr]
                omega
            | false =>
              simp only [h2] at h
              by_cases hd : is_digit (current (eat_ws rem0)) = true
              · rw [if_pos hd] at h
                cases hpn : parse_number (eat_ws rem0) with
                | error e => simp [hpn] at h
                | ok pr =>
                  obtain ⟨s, r⟩ := pr
                  simp only [hpn] at h
                  injection h with h1'
                  injection h1' with hv hr
                  have := parse_number_ok hpn
                  rw [← hr]
                  omega
              · rw [if_neg hd] at h
                cases h3 : eat (eat_ws rem0) [116, 114, 117, 101] with
                | error e => simp [h3] at h
                | ok p3 =>
                  obtain ⟨b3, remt⟩ := p3
                  cases b3 with
                  | true =>
                    simp only [h3] at h
                    injection h with h1'
                    injection h1' with hv hr
                    have := eat_true_length h3 (by decide)
                    rw [← hr]
                    omega
                  | false =>
                    simp only [h3] at h
                    cases h4 : eat (eat_ws rem0) [102, 97, 108, 115, 101] with
                    | error e => simp [h4] at h
                    | ok p4 =>
                      obtain ⟨b4, remf⟩ := p4
                      cases b4 with
                      | true =>
                        simp only [h4] at h
                        injection h with h1'
                        injection h1' with hv hr
                        have := eat_true_length h4 (by decide)
                        rw [← hr]
                        omega
                      | false =>
                        simp only [h4] at h
                        cases h5 : eat (eat_ws rem0) [64, 48, 120] with
                        | error e => simp [h5] at h
                        | ok p5 =>
                          obtain ⟨b5, rema⟩ := p5
                          cases b5 with
                          | false => simp only [h5] at h; simp at h
                          | true =>
                            simp only [h5] at h
                            cases hrr : remove_reference rema with
                            | error e => simp [hrr] at h
                            | ok remb =>
                              simp only [hrr] at h
                              have hlt := ihv remb v rem2 h
                              have hrl := (remove_reference_facts rema).1 remb hrr
                              have he := eat_true_length h5 (by decide)
                              omega
    · intro rem0 first is_map lacc macc v rem2 h
      simp only [parse_list_or_map] at h
      have hws0 := eat_ws_length rem0
      cases hc : eat (eat_ws rem0) [44] with
      | error e => simp [hc] at h
      | ok pc =>
        obtain ⟨has_comma, remA⟩ := pc
        simp only [hc] at h
        have hA : remA.length ≤ (eat_ws rem0).length := eat_length hc
        have hws1 := eat_ws_length remA
        by_cases hfc : (first && has_comma) = true
        · rw [if_pos hfc] at h; simp at h
        · rw [if_neg hfc] at h
          cases hbr : eat (eat_ws remA) [125] with
          | error e => simp [hbr] at h
          | ok pb =>
            obtain ⟨closed, remB⟩ := pb
            cases closed with
            | true =>
              simp only [hbr] at h
              injection h with h1'
              injection h1' with hv hr
              have := eat_true_length hbr (by decide)
              rw [← hr]
              omega
            | false =>
              simp only [hbr] at h
              by_cases hmc : (!first && !has_comma) = true
              · rw [if_pos hmc] at h; simp at h
              · rw [if_neg hmc] at h
                have hws2 := eat_ws_length (eat_ws remA)
                cases hlb : eat (eat_ws (eat_ws remA)) [91] with
                | error e => simp [hlb] at h
                | ok pl =>
                  obtain ⟨lb, rem6⟩ := pl
                  simp only [hlb] at h
                  have h6 : rem6.length ≤ (eat_ws (eat_ws remA)).length := eat_length hlb
                  by_cases hx1 : (lb && !first && !is_map) = true
                  · rw [if_pos hx1] at h; simp at h
                  · rw [if_neg hx1] at h
                    by_cases hx2 : (!lb && is_map) = true
                    · rw [if_pos hx2] at h; simp at h
                    · rw [if_neg hx2] at h
                      by_cases ha : is_alpha (current rem6) = true
                      · rw [if_pos ha] at h
                        rcases hpi : parse_ident rem6 with ⟨k, rem7⟩
                        simp only [hpi] at h
                        have h7 : rem7.length ≤ rem6.length := by
                          have := parse_ident_le rem6
                          rw [hpi] at this
                          exact this
                        have hws3 := eat_ws_length rem7
                        cases heq : eat (eat_ws rem7) [61] with
                        | error e => simp [heq] at h
                        | ok pe =>
                          obtain ⟨beq, rem9⟩ := pe
                          cases beq with
                          | false => simp only [heq] at h; simp at h
                          | true =>
                            simp only [heq] at h
                            cases hpv : parse_value fuel rem9 with
                            | error e => simp [hpv] at h
                            | ok pv =>
                              obtain ⟨v1, rem10⟩ := pv
                              simp only [hpv] at h
                              have hlt := ihl rem10 false true lacc
                                (macc ++ [(Value.String k, v1)]) v rem2 h
                              have h10 := ihv rem9 v1 rem10 hpv
                              have h9 := eat_true_length heq (by decide)
                              omega
                      · rw [if_neg ha] at h
                        by_cases him : (if (lb && first) = true then true else is_map) = true
                        · rw [if_pos him] at h
                          cases hk : parse_value fuel rem6 with
                          | error e => simp [hk] at h
                          | ok pk =>
                            obtain ⟨k1, rem7⟩ := pk
                            simp only [hk] at h
                            have h7 := ihv rem6 k1 rem7 hk
                            have hws3 := eat_ws_length rem7
                            cases hrb : eat (eat_ws rem7) [93] with
                            | error e => simp [hrb] at h
                            | ok pr =>
                              obtain ⟨brb, rem9⟩ := pr
                              cases brb with
                              | false => simp only [hrb] at h; simp at h
                              | true =>
                                simp only [hrb] at h
                                have h9 := eat_true_length hrb (by decide)
                                have hws4 := eat_ws_length rem9
                                cases heq2 : eat (eat_ws rem9) [61] with
                                | error e => simp [heq2] at h
                                | ok pe2 =>
                                  obtain ⟨beq2, rem11⟩ := pe2
                                  cases beq2 with
                                  | false => simp only [heq2] at h; simp at h
                                  | true =>
                                    simp only [heq2] at h
                                    have h11 := eat_true_length heq2 (by decide)
                                    cases hv2 : parse_value fuel rem11 with
                                    | error e => simp [hv2] at h
                                    | ok pv2 =>
                                      obtain ⟨v1, rem12⟩ := pv2
                                      simp only [hv2] at h
                                      have h12 := ihv rem11 v1 rem12 hv2
                                      have hlt := ihl rem12 false
                                        (if (lb && first) = true then true else is_map)
                                        lacc (macc ++ [(k1, v1)]) v rem2 h
                                      omega
                        · rw [if_neg him] at h
                          cases hv3 : parse_value fuel rem6 with
                          | error e => simp [hv3] at h
                          | ok pv3 =>
                            obtain ⟨v1, rem7⟩ := pv3
                            simp only [hv3] at h
                            have h7 := ihv rem6 v1 rem7 hv3
                            have hlt := ihl rem7 false
                              (if (lb && first) = true then true else is_map)
                              (lacc ++ [v1]) macc v rem2 h
                            omega

theorem eat_true_len_eq {rem tok rem2 : Bytes} (h : eat rem tok = .ok (true, rem2)) :
    rem2.length + tok.length = rem.length := by
  rcases eat_ok_cases h with ⟨_, hle, hr⟩ | ⟨hb, _⟩
  · subst hr; simp [List.length_drop]; omega
  · simp at hb

theorem err_ne {e : Err} (hne : e ≠ .fuelOut) :
    (Except.error e : Except Err (Value × Bytes)) ≠ .error .fuelOut := by
  intro hcontra
  injection hcontra with h2
  exact hne h2

/-- With fuel at least twice the remaining input length (plus a constant),
the fuel never runs out: every iteration of the container loop and every
dispatch step consumes input, except the very first entry of a container,
which costs the one extra unit. -/
theorem parse_no_fuel_out : ∀ n : Nat,
    (∀ rem0 fuel, rem0.length ≤ n → 2 * rem0.length + 1 ≤ fuel →
      parse_value fuel rem0 ≠ .error .fuelOut) ∧
    (∀ rem0 first is_map lacc macc fuel, rem0.length ≤ n → 2 * rem0.length + 2 ≤ fuel →
      parse_list_or_map fuel rem0 first is_map lacc macc ≠ .error .fuelOut) := by
  intro n
  induction n with
  | zero =>
    constructor
    · intro rem0 fuel hlen hfuel
      have hrem : rem0 = [] := List.eq_nil_of_length_eq_zero (Nat.le_zero.mp hlen)
      subst hrem
      obtain ⟨g, rfl⟩ : ∃ g, fuel = g + 1 := ⟨fuel - 1, by omega⟩
      rw [show parse_value (g + 1) [] = .error .expectedValue from rfl]
      simp
    · intro rem0 first is_map lacc macc fuel hlen hfuel
      have hrem : rem0 = [] := List.eq_nil_of_length_eq_zero (Nat.le_zero.mp hlen)
      subst hrem
      obtain ⟨g, rfl⟩ : ∃ g, fuel = g + 2 := ⟨fuel - 2, by omega⟩
      cases first with
      | false =>
        rw [show parse_list_or_map (g + 2) [] false is_map lacc macc =
          .error .missingComma from rfl]
        simp
      | true =>
        cases is_map with
        | true =>
          rw [show parse_list_or_map (g + 2) [] true true lacc macc =
            .error .mixedShape from rfl]
          simp
        | false =>
          rw [show parse_list_or_map (g + 2) [] true false lacc macc =
            .error .expectedValue from rfl]
          simp
  | succ n ihn =>
    obtain ⟨ihv, ihl⟩ := ihn
    have hA : ∀ rem0 fuel, rem0.length ≤ n + 1 → 2 * rem0.length + 1 ≤ fuel →
        parse_value fuel rem0 ≠ .error .fuelOut := by
      intro rem0 fuel hlen hfuel
      obtain ⟨g, rfl⟩ : ∃ g, fuel = g + 1 := ⟨fuel - 1, by omega⟩
      intro h
      simp only [parse_value] at h
      have hws0 := eat_ws_length rem0
      cases h1 : eat (eat_ws rem0) [123] with
      | error e =>
        simp only [h1] at h
        exact err_ne (by rw [eat_error h1]; decide) h
      | ok p1 =>
        obtain ⟨b1, rem1⟩ := p1
        cases b1 with
        | true =>
          simp only [h1] at h
          have he := eat_true_length h1 (by decide)
          exact ihl rem1 true false [] [] g (by omega) (by omega) h
        | false =>
          simp only [h1] at h
          cases h2 : eat (eat_ws rem0) [34] with
          | error e =>
            simp only [h2] at h
            exact err_ne (by rw [eat_error h2]; decide) h
          | ok p2 =>
            obtain ⟨b2, remq⟩ := p2
            cases b2 with
            | true =>
              simp only [h2] at h
              cases hps : parse_string remq with
              | error e =>
                simp only [hps] at h
                exact err_ne ((parse_string_facts remq).2 e hps) h
              | ok pr =>
                obtain ⟨s, r⟩ := pr
                simp only [hps] at h
                simp at h
            | false =>
              simp only [h2] at h
              by_cases hd : is_digit (current (eat_ws rem0)) = true
              · rw [if_pos hd] at h
                cases hpn : parse_number (eat_ws rem0) with
                | error e =>
                  simp only [hpn] at h
                  exact err_ne (by rw [parse_number_error hpn]; decide) h
                | ok pr =>
                  obtain ⟨s, r⟩ := pr
                  simp only [hpn] at h
                  simp at h
              · rw [if_neg hd] at h
                cases h3 : eat (eat_ws rem0) [116, 114, 117, 101] with
                | error e =>
                  simp only [h3] at h
                  exact err_ne (by rw [eat_error h3]; decide) h
                | ok p3 =>
                  obtain ⟨b3, remt⟩ := p3
                  cases b3 with
                  | true => simp only [h3] at h; simp at h
                  | false =>
                    simp only [h3] at h
                    cases h4 : eat (eat_ws rem0) [102, 97, 108, 115, 101] with
                    | error e =>
                      simp only [h4] at h
                      exact err_ne (by rw [eat_error h4]; decide) h
                    | ok p4 =>
                      obtain ⟨b4, remf⟩ := p4
                      cases b4 with
                      | true => simp only [h4] at h; simp at h
                      | false =>
                        simp only [h4] at h
                        cases h5 : eat (eat_ws rem0) [64, 48, 120] with
                        | error e =>
                          simp only [h5] at h
                          exact err_ne (by rw [eat_error h5]; decide) h
                        | ok p5 =>
                          obtain ⟨b5, rema⟩ := p5
                          cases b5 with
                          | false => simp only [h5] at h; simp at h
                          | true =>
                            simp only [h5] at h
                            cases hrr : remove_reference rema with
                            | error e =>
                              simp only [hrr] at h
                              exact err_ne
                                (by rw [(remove_reference_facts rema).2 e hrr]; decide) h
                            | ok remb =>
                              simp only [hrr] at h
                              have he := eat_true_length h5 (by decide)
                              have hrl := (remove_reference_facts rema).1 remb hrr
                              exact ihv remb g (by omega) (by omega) h
    refine ⟨hA, ?_⟩
    intro rem0 first is_map lacc macc fuel hlen hfuel
    obtain ⟨g, rfl⟩ : ∃ g, fuel = g + 1 := ⟨fuel - 1, by omega⟩
    intro h
    simp only [parse_list_or_map] at h
    have hws0 := eat_ws_length rem0
    cases hc : eat (eat_ws rem0) [44] with
    | error e =>
      simp only [hc] at h
      exact err_ne (by rw [eat_error hc]; decide) h
    | ok pc =>
      obtain ⟨has_comma, remA⟩ := pc
      simp only [hc] at h
      have hcA : remA.length ≤ (eat_ws rem0).length := eat_length hc
      have hws1 := eat_ws_length remA
      by_cases hfc : (first && has_comma) = true
      · rw [if_pos hfc] at h
        exact err_ne (by decide) h
      · rw [if_neg hfc] at h
        cases hbr : eat (eat_ws remA) [125] with
        | error e =>
          simp only [hbr] at h
          exact err_ne (by rw [eat_error hbr]; decide) h
        | ok pb =>
          obtain ⟨closed, remB⟩ := pb
          cases closed with
          | true => simp only [hbr] at h; simp at h
          | false =>
            simp only [hbr] at h
            by_cases hmc : (!first && !has_comma) = true
            · rw [if_pos hmc] at h
              exact err_ne (by decide) h
            · rw [if_neg hmc] at h
              have hws2 := eat_ws_length (eat_ws remA)
              cases hlb : eat (eat_ws (eat_ws remA)) [91] with
              | error e =>
                simp only [hlb] at h
                exact err_ne (by rw [eat_error hlb]; decide) h
              | ok pl =>
                obtain ⟨lb, rem6⟩ := pl
                simp only [hlb] at h
                have h6 : rem6.length ≤ (eat_ws (eat_ws remA)).length := eat_length hlb
                by_cases hx1 : (lb && !first && !is_map) = true
                · rw [if_pos hx1] at h
                  exact err_ne (by decide) h
                · rw [if_neg hx1] at h
                  by_cases hx2 : (!lb && is_map) = true
                  · rw [if_pos hx2] at h
                    exact err_ne (by decide) h
                  · rw [if_neg hx2] at h
                    by_cases ha : is_alpha (current rem6) = true
                    · rw [if_pos ha] at h
                      rcases hpi : parse_ident rem6 with ⟨k, rem7⟩
                      simp only [hpi] at h
                      have h7 : rem7.length < rem6.length := by
                        have := parse_ident_alpha ha
                        rw [hpi] at this
                        exact this
                      have hws3 := eat_ws_length rem7
                      cases heq : eat (eat_ws rem7) [61] with
                      | error e =>
                        simp only [heq] at h
                        exact err_ne (by rw [eat_error heq]; decide) h
                      | ok pe =>
                        obtain ⟨beq, rem9⟩ := pe
                        cases beq with
                        | false =>
                          simp only [heq] at h
                          exact err_ne (by decide) h
                        | true =>
                          simp only [heq] at h
                          have h9 := eat_true_length heq (by decide)
                          cases hpv : parse_value g rem9 with
                          | error e =>
                            simp only [hpv] at h
                            injection h with h2
                            subst h2
                            exact hA rem9 g (by omega) (by omega) hpv
                          | ok pv =>
                            obtain ⟨v1, rem10⟩ := pv
                            simp only [hpv] at h
                            have h10 := (parse_progress g).1 rem9 v1 rem10 hpv
                            exact ihl rem10 false true lacc
                              (macc ++ [(Value.String k, v1)]) g (by omega) (by omega) h
                    · rw [if_neg ha] at h
                      by_cases him : (if (lb && first) = true then true else is_map) = true
                      · rw [if_pos him] at h
                        cases hk : parse_value g rem6 with
                        | error e =>
                          simp only [hk] at h
                          injection h with h2
                          subst h2
                          exact hA rem6 g (by omega) (by omega) hk
                        | ok pk =>
                          obtain ⟨k1, rem7⟩ := pk
                          simp only [hk] at h
                          have h7 := (parse_progress g).1 rem6 k1 rem7 hk
                          have hws3 := eat_ws_length rem7
                          cases hrb : eat (eat_ws rem7) [93] with
                          | error e =>
                            simp only [hrb] at h
                            exact err_ne (by rw [eat_error hrb]; decide) h
                          | ok pr =>
                            obtain ⟨brb, rem9⟩ := pr
                            cases brb with
                            | false =>
                              simp only [hrb] at h
                              exact err_ne (by decide) h
                            | true =>
                              simp only [hrb] at h
                              have h9 := eat_true_length hrb (by decide)
                              have hws4 := eat_ws_length rem9
                              cases heq2 : eat (eat_ws rem9) [61] with
                              | error e =>
                                simp only [heq2] at h
                                exact err_ne (by rw [eat_error heq2]; decide) h
                              | ok pe2 =>
                                obtain ⟨beq2, rem11⟩ := pe2
                                cases beq2 with
                                | false =>
                                  simp only [heq2] at h
                                  exact err_ne (by decide) h
                                | true =>
                                  simp only [heq2] at h
                                  have h11 := eat_true_length heq2 (by decide)
                                  cases hv2 : parse_value g rem11 with
                                  | error e =>
                                    simp only [hv2] at h
                                    injection h with h2
                                    subst h2
                                    exact hA rem11 g (by omega) (by omega) hv2
                                  | ok pv2 =>
                                    obtain ⟨v1, rem12⟩ := pv2
                                    simp only [hv2] at h
                                    have h12 := (parse_progress g).1 rem11 v1 rem12 hv2
                                    exact ihl rem12 false
                                      (if (lb && first) = true then true else is_map)
                                      lacc (macc ++ [(k1, v1)]) g
                                      (by omega) (by omega) h
                      · rw [if_neg him] at h
                        cases hv3 : parse_value g rem6 with
                        | error e =>
                          simp only [hv3] at h
                          injection h with h2
                          subst h2
                          exact hA rem6 g (by omega) (by omega) hv3
                        | ok pv3 =>
                          obtain ⟨v1, rem7⟩ := pv3
                          simp only [hv3] at h
                          have h7 := (parse_progress g).1 rem6 v1 rem7 hv3
                          exact ihl rem7 false
                            (if (lb && first) = true then true else is_map)
                            (lacc ++ [v1]) macc g (by omega) (by omega) h

/-- C10: `parse_value` terminates on every finite input: with the fuel
budget of `parse` (twice the input length plus one) the fuel-exhaustion
marker is unreachable, so each parse ends in a `Value` or one of the
genuine abort errors after a bounded number of steps. -/
theorem c10_parse_value_terminates (src : Bytes) : parse src ≠ .error .fuelOut :=
  (parse_no_fuel_out src.length).1 src (2 * src.length + 1) le_rfl le_rfl
